import Mathlib

/-!
# Verification of the wasm-vm host bridge and device-tree encoder

Shallow embedding of the repository's two source files:
* `worker.ts` (the syscall bridge: `instantiate`, its import table, and the
  `onmessage` dispatcher), and
* `tools/wasm-vm/src/main.ts` (the bootstrap orchestrator and the device-tree
  generation call).

Shared linear memory is modelled as a total function `Nat → Nat` holding byte
values; writing a byte list at an offset overwrites exactly that range.
JavaScript numbers used as indices/handles are modelled as `Nat` (they are
non-negative in every call modelled here); the interrupt flag is an `Int`.
-/

namespace WasmVM

/-- A byte store: the `Uint8Array` view of the shared `WebAssembly.Memory`. -/
def Mem : Type := Nat → Nat

/-- `memory.set(bytes, off)`: overwrite `bytes.length` bytes starting at `off`. -/
def writeBytes (m : Mem) (off : Nat) (bs : List Nat) : Mem :=
  fun i => if h : off ≤ i ∧ i - off < bs.length then bs.get ⟨i - off, h.2⟩ else m i

/-- `memory.slice(off, off + len)`: read `len` bytes starting at `off`. -/
def readBytes (m : Mem) (off len : Nat) : List Nat :=
  (List.range len).map (fun i => m (off + i))

/-! ## `get_now_nsec` (worker.ts)

`BigInt(Math.round((performance.now() + performance.timeOrigin) * 200)) * 5000n`.
The host clock reading `performance.now() + performance.timeOrigin` is a
millisecond-valued number, modelled as a rational `t`.  JavaScript's
`Math.round x` is `⌊x + 1/2⌋`, which is Mathlib's `round`. -/

def get_now_nsec (t : ℚ) : ℤ := round (t * 200) * 5000

/-! ## Interrupt flag state (worker.ts `instantiate`)

Each call to `instantiate` creates its own `let irqflags = 0`, captured by the
`set_irq_enabled` / `get_irq_enabled` closures of that instantiation alone.
A run of the whole system is modelled as a map from instantiation id to that
instantiation's flag, updated by `set` events. -/

def IrqSystem : Type := Nat → Int

/-- All instantiations start with `irqflags = 0`. -/
def irqInit : IrqSystem := fun _ => 0

/-- `set_irq_enabled(flags)` in instantiation `who`: stores into that
instantiation's captured `irqflags` only. -/
def set_irq_enabled (s : IrqSystem) (who : Nat) (flags : Int) : IrqSystem :=
  fun i => if i = who then flags else s i

/-- `get_irq_enabled()` in instantiation `who`: reads that instantiation's
captured `irqflags`. -/
def get_irq_enabled (s : IrqSystem) (who : Nat) : Int := s who

/-- One recorded bridge call that touches interrupt state. -/
structure IrqEvent where
  who : Nat
  flags : Int

/-- Replay a sequence of `set_irq_enabled` calls from the initial state. -/
def irqRun (evs : List IrqEvent) : IrqSystem :=
  evs.foldl (fun s e => set_irq_enabled s e.who e.flags) irqInit

/-- The value `get_irq_enabled` must return in instantiation `who` after the
events `evs`: the flag of the last `set` by `who`, or `0` if there is none. -/
def lastFlag (who : Nat) (evs : List IrqEvent) : Int :=
  evs.foldl (fun acc e => if e.who = who then e.flags else acc) 0

/-! ## `get_stacktrace` (worker.ts)

```
get_stacktrace(buf: number, size: number) {
  const trace = new TextEncoder().encode(
    new Error().stack?.split("\n").slice(5).join("\n"));
  if (size >= trace.byteLength) {
    trace[size - 1] = 46; trace[size - 2] = 46; trace[size - 3] = 46;
  }
  memory.set(trace.slice(0, size), buf);
}
```

The UTF-8 bytes of the trimmed backtrace are the parameter `trace`.
A `Uint8Array` index store is a no-op when the index is negative or at/past
the array's length, so the three marker stores are modelled by `tset` with an
`Int` index guarded on both sides. -/

/-- `arr[i] = v` on a `Uint8Array`: silently ignored out of bounds. -/
def tset (l : List Nat) (i : Int) (v : Nat) : List Nat :=
  if 0 ≤ i ∧ i.toNat < l.length then l.set i.toNat v else l

/-- The bridge's `get_stacktrace`, returning the memory after the call. -/
def get_stacktrace (m : Mem) (trace : List Nat) (buf size : Nat) : Mem :=
  let t :=
    if size ≥ trace.length then
      tset (tset (tset trace ((size : Int) - 1) 46) ((size : Int) - 2) 46)
        ((size : Int) - 3) 46
    else trace
  writeBytes m buf (t.take size)

/-! ## `get_dt` (worker.ts)

The default import, bound in every non-boot instantiation:

```
get_dt = (_buf: number, _size: number) => {
  console.error("get_dt called on non-boot thread");
}
```

The boot instantiation's closure (the `"boot"` case of `onmessage`):

```
(buf, size) => {
  assert(size >= ev.data.devicetree.byteLength, "Device tree truncated");
  new Uint8Array(ev.data.memory.buffer).set(ev.data.devicetree.slice(0, size), buf);
}
```
-/

/-- Default `get_dt` for non-boot contexts: memory untouched, one error line
logged. The result pairs the memory after the call with the log emitted. -/
def get_dt_default (m : Mem) (_buf _size : Nat) : Mem × List String :=
  (m, ["get_dt called on non-boot thread"])

/-- Modelled from the spec: `assert` lives in `util.ts`, which is not among the
source files; the spec describes its effect as "an assertion failure that
aborts boot", i.e. the condition is checked and a failure is thrown (carrying
the message) before any subsequent statement runs. -/
def assertCheck (cond : Bool) (msg : String) : Except String Unit :=
  if cond then .ok () else .error msg

/-- The boot context's `get_dt` closure: assert capacity, then copy the blob. -/
def get_dt_boot (devicetree : List Nat) (m : Mem) (buf size : Nat) :
    Except String Mem :=
  match assertCheck (decide (size ≥ devicetree.length)) "Device tree truncated" with
  | .error e => .error e
  | .ok _ => .ok (writeBytes m buf (devicetree.take size))

/-! ## Spawn requests (worker.ts) and the orchestrator (main.ts)

`new_worker` and `bringup_secondary` each post exactly one message to the
orchestrator; the orchestrator's `listen` handler turns each received message
into at most one new worker.  Worker names are kept as their UTF-8 byte
sequences (the `TextDecoder`/`TextEncoder` pair is the identity on those
bytes). -/

/-- A message posted by a context via `self.postMessage`. -/
inductive SpawnMsg where
  | task (task : Nat) (name : List Nat)
  | secondary (cpu : Nat) (idle : Nat)
  deriving DecidableEq, Repr

/-- `new_worker(task, comm, commLen)`: decode the name from shared memory and
post one `task` message. -/
def new_worker (m : Mem) (task comm commLen : Nat) : List SpawnMsg :=
  [SpawnMsg.task task (readBytes m comm commLen)]

/-- `bringup_secondary(cpu, idle)`: post one `secondary` message. -/
def bringup_secondary (cpu idle : Nat) : List SpawnMsg :=
  [SpawnMsg.secondary cpu idle]

/-- The start message the orchestrator posts into a freshly spawned worker;
`vmlinux` and `memory` are the one compiled module and the one shared memory,
present in every start message. -/
inductive StartMsg where
  | boot
  | task (task : Nat)
  | secondary (cpu : Nat) (idle : Nat)
  deriving DecidableEq, Repr

/-- One primitive step of the orchestrator, in program order: create a worker,
attach the `listen` handler to a worker, or post a start message to a worker.
Workers are named by spawn order. -/
inductive OrchAction where
  | create (w : Nat)
  | attach (w : Nat)
  | post (w : Nat) (msg : StartMsg)
  deriving DecidableEq, Repr

/-- The `listen` handler of main.ts, acting on one received message: the trace
of actions for the worker it spawns (`w` is the fresh worker's id).  The
`task` and `secondary` cases each do
`listen(new Worker(...)).postMessage(...)`: create, attach (inside `listen`,
before it returns the worker), then post.  Any other message type falls out
of the `switch` and spawns nothing. -/
def handleSpawnMsg (w : Nat) : SpawnMsg → List OrchAction
  | SpawnMsg.task t _name =>
      [OrchAction.create w, OrchAction.attach w, OrchAction.post w (StartMsg.task t)]
  | SpawnMsg.secondary cpu idle =>
      [OrchAction.create w, OrchAction.attach w,
        OrchAction.post w (StartMsg.secondary cpu idle)]

/-- The boot spawn at the bottom of main.ts:
`listen(new Worker(...)).postMessage({type: "boot", ...})`. -/
def bootSpawn (w : Nat) : List OrchAction :=
  [OrchAction.create w, OrchAction.attach w, OrchAction.post w StartMsg.boot]

/-! ## Traces: listener attachment ordering (main.ts) -/

/-- In an orchestrator action trace, every start message posted to a worker is
preceded by attaching the `listen` handler to that worker. -/
def attachPrecedesPost (tr : List OrchAction) : Prop :=
  ∀ j w s, tr.get? j = some (OrchAction.post w s) →
    ∃ i, i < j ∧ tr.get? i = some (OrchAction.attach w)

/-! ## Device-tree encoder and a reference flattened-format decoder

`generateDeviceTree` lives in `devicetree.ts`, which is not among the source
files (only its call site in main.ts is); the encoder below is modelled from
the spec.  The decoder is the reference flattened-format decoder the spec's
round-trip property talks about. -/

/-- Big-endian 32-bit cell holding `n` (callers keep `n < 2^32`). -/
def be32 (n : Nat) : List Nat :=
  [n / 16777216 % 256, n / 65536 % 256, n / 256 % 256, n % 256]

/-- Zero bytes needed to bring a block of `k` bytes to a 4-byte boundary. -/
def padLen (k : Nat) : Nat := (4 - k % 4) % 4

/-- Pad a byte block with zero bytes to a 4-byte boundary. -/
def pad4 (bs : List Nat) : List Nat := bs ++ List.replicate (padLen bs.length) 0

/-- Modelled from the spec: a device-tree property value is one of a raw byte
buffer (`Uint8Array`), a null-terminated string, or a sequence of big-endian
32-bit cells (`number[]`). -/
inductive PropValue where
  | bytes (bs : List Nat)
  | str (s : List Nat)
  | cells (cs : List Nat)
  deriving DecidableEq, Repr

/-- Modelled from the spec: the encoder's input, a tree where each node has a
name and a mapping of property name to value.  Names and strings are kept as
their UTF-8 bytes. -/
inductive Node where
  | mk (name : List Nat) (props : List (List Nat × PropValue)) (children : List Node)
  deriving Repr

def Node.name : Node → List Nat
  | .mk n _ _ => n

def Node.props : Node → List (List Nat × PropValue)
  | .mk _ p _ => p

def Node.children : Node → List Node
  | .mk _ _ c => c

/-- Wire encoding of a property value: a string gains its null terminator,
cells become big-endian 32-bit cells, raw bytes are kept as they are. -/
def encodeValue : PropValue → List Nat
  | .bytes bs => bs
  | .str s => s ++ [0]
  | .cells cs => (cs.map be32).flatten

/-- Structure-block tokens, property names resolved. -/
inductive Tok where
  | nodeBegin (name : List Nat)
  | propTok (name : List Nat) (val : List Nat)
  | nodeEnd
  deriving DecidableEq, Repr

/-- Structure-block tokens as read back from the wire: a property name is
still a string-table offset. -/
inductive RTok where
  | nodeBegin (name : List Nat)
  | propTok (nameoff : Nat) (val : List Nat)
  | nodeEnd
  deriving DecidableEq, Repr

/-- A decoded node: property values are wire bytes, since the flattened
format stores no value types. -/
inductive RNode where
  | mk (name : List Nat) (props : List (List Nat × List Nat)) (children : List RNode)
  deriving Repr

def RNode.name : RNode → List Nat
  | .mk n _ _ => n

def RNode.props : RNode → List (List Nat × List Nat)
  | .mk _ p _ => p

def RNode.children : RNode → List RNode
  | .mk _ _ c => c

/-- Property tokens of a property list, values in wire form. -/
def propToks (props : List (List Nat × PropValue)) : List Tok :=
  props.map (fun p => Tok.propTok p.1 (encodeValue p.2))

mutual

/-- Structure-block token stream of one node: begin-node, the properties,
the children, end-node. -/
def nodeToks : Node → List Tok
  | .mk name props children =>
      Tok.nodeBegin name :: (propToks props ++ (listToks children ++ [Tok.nodeEnd]))

/-- Token streams of sibling nodes, concatenated. -/
def listToks : List Node → List Tok
  | [] => []
  | c :: cs => nodeToks c ++ listToks cs

end

mutual

/-- Every property name of the tree, in encounter order. -/
def nodePropNames : Node → List (List Nat)
  | .mk _ props children => props.map Prod.fst ++ listPropNames children

def listPropNames : List Node → List (List Nat)
  | [] => []
  | c :: cs => nodePropNames c ++ listPropNames cs

end

/-- Properties with their values in wire form. -/
def eraseProps (props : List (List Nat × PropValue)) : List (List Nat × List Nat) :=
  props.map (fun p => (p.1, encodeValue p.2))

mutual

/-- Forget the property value types: the tree as the wire carries it. -/
def eraseNode : Node → RNode
  | .mk name props children =>
      RNode.mk name (eraseProps props) (eraseList children)

def eraseList : List Node → List RNode
  | [] => []
  | c :: cs => eraseNode c :: eraseList cs

end

/-- A representable value: every cell fits the 32-bit cell width (the spec's
`EncodingError` condition on declared types). -/
def validVal : PropValue → Bool
  | .bytes _ => true
  | .str _ => true
  | .cells cs => cs.all (fun c => decide (c < 4294967296))

/-- An encodable property: no null byte inside its name, a representable
value, and a wire value fitting the 32-bit length field. -/
def validProp (p : List Nat × PropValue) : Bool :=
  decide ((0 : Nat) ∉ p.1) && validVal p.2 &&
    decide ((encodeValue p.2).length < 4294967296)

mutual

/-- Encodable trees: no null byte inside a node name, every property
encodable. -/
def validNode : Node → Bool
  | .mk name props children =>
      decide ((0 : Nat) ∉ name) && props.all validProp && validList children

def validList : List Node → Bool
  | [] => true
  | c :: cs => validNode c && validList cs

end

/-- The interned string table: each name once, null-terminated. -/
def strTabBytes : List (List Nat) → List Nat
  | [] => []
  | n :: rest => n ++ 0 :: strTabBytes rest

/-- Offset of name `m` inside the string table built from `tab`. -/
def strOffset : List (List Nat) → List Nat → Nat
  | [], _ => 0
  | n :: rest, m => if n = m then 0 else n.length + 1 + strOffset rest m

/-- Read the null-terminated string at `off` of the strings block. -/
def lookupStr (bytes : List Nat) (off : Nat) : List Nat :=
  (bytes.drop off).takeWhile (fun b => b != 0)

/-- Serialize one token: begin-node (1) with padded name, property (3) with
length, string-table offset and padded payload, or end-node (2). -/
def serTok (tab : List (List Nat)) : Tok → List Nat
  | .nodeBegin name => be32 1 ++ pad4 (name ++ [0])
  | .propTok name val =>
      be32 3 ++ be32 val.length ++ be32 (strOffset tab name) ++ pad4 val
  | .nodeEnd => be32 2

def serToks (tab : List (List Nat)) (ts : List Tok) : List Nat :=
  (ts.map (serTok tab)).flatten

def fdtMagic : Nat := 3490578157

/-- Interned name list of the tree's string table. -/
def fdtTab (t : Node) : List (List Nat) := (nodePropNames t).dedup

/-- The structure block: the tree's tokens closed by the end token (9). -/
def fdtStruct (t : Node) : List Nat := serToks (fdtTab t) (nodeToks t) ++ be32 9

/-- The strings block. -/
def fdtStrings (t : Node) : List Nat := strTabBytes (fdtTab t)

/-- Modelled from the spec: serialize the tree into the canonical flattened
format — a 40-byte header (magic, total size, structure offset, strings
offset, reservation-list offset, version 17, last compatible version 16,
boot CPU 0, strings size, structure size), an empty zero-terminated
memory-reservation list (16 zero bytes), the structure block closed by the
end token (9), then the interned string table. -/
def encodeFDT (t : Node) : List Nat :=
  be32 fdtMagic ++
    be32 (56 + (fdtStruct t).length + (fdtStrings t).length) ++
    be32 56 ++ be32 (56 + (fdtStruct t).length) ++ be32 40 ++ be32 17 ++
    be32 16 ++ be32 0 ++ be32 (fdtStrings t).length ++
    be32 (fdtStruct t).length ++
    List.replicate 16 0 ++ fdtStruct t ++ fdtStrings t

/-- The blob must fit the 32-bit size fields of the format (the spec's
`EncodingError` bound). -/
def fdtFits (t : Node) : Bool := decide ((encodeFDT t).length < 4294967296)

def readBe32 : List Nat → Option (Nat × List Nat)
  | a :: b :: c :: d :: rest => some (((a * 256 + b) * 256 + c) * 256 + d, rest)
  | _ => none

/-- Tokenize the structure block: read 4-byte tokens, names and padded
payloads, stopping at the end token (9).  Padding after a name or payload is
computable from its length because every token keeps 4-byte alignment. -/
def tokenize : Nat → List Nat → Option (List RTok)
  | 0, _ => none
  | fuel + 1, bs =>
      match readBe32 bs with
      | none => none
      | some (tok, rest) =>
          if tok = 1 then
            let name := rest.takeWhile (fun b => b != 0)
            match tokenize fuel (rest.drop (name.length + 1 + padLen (name.length + 1))) with
            | some ts => some (RTok.nodeBegin name :: ts)
            | none => none
          else if tok = 2 then
            match tokenize fuel rest with
            | some ts => some (RTok.nodeEnd :: ts)
            | none => none
          else if tok = 3 then
            match readBe32 rest with
            | none => none
            | some (len, rest2) =>
                match readBe32 rest2 with
                | none => none
                | some (off, rest3) =>
                    match tokenize fuel (rest3.drop (len + padLen len)) with
                    | some ts => some (RTok.propTok off (rest3.take len) :: ts)
                    | none => none
          else if tok = 9 then some []
          else none

/-- Resolve a raw token's property-name offset through the strings block. -/
def resolveTok (strings : List Nat) : RTok → Tok
  | .nodeBegin n => .nodeBegin n
  | .propTok off val => .propTok (lookupStr strings off) val
  | .nodeEnd => .nodeEnd

/-- What the tokenizer reads back from one serialized token: the property
name replaced by its string-table offset. -/
def rawTok (tab : List (List Nat)) : Tok → RTok
  | .nodeBegin n => .nodeBegin n
  | .propTok n v => .propTok (strOffset tab n) v
  | .nodeEnd => .nodeEnd

/-- Token well-formedness against a name list: begin-node names carry no null
byte, property names are listed and values fit the length field. -/
def tokTreeOk (names : List (List Nat)) : Tok → Prop
  | .nodeBegin n => (0 : Nat) ∉ n
  | .propTok n v => n ∈ names ∧ v.length < 4294967296
  | .nodeEnd => True

/-- Parse the items (properties and child nodes) of an open node up to and
including its end token, returning the remaining tokens. -/
def parseItems : Nat → List Tok →
    Option (List (List Nat × List Nat) × List RNode × List Tok)
  | 0, _ => none
  | fuel + 1, Tok.propTok n v :: ts =>
      match parseItems fuel ts with
      | some (ps, cs, rest) => some ((n, v) :: ps, cs, rest)
      | none => none
  | fuel + 1, Tok.nodeBegin n :: ts =>
      match parseItems fuel ts with
      | some (ps0, cs0, rest) =>
          match parseItems fuel rest with
          | some (ps, cs, rest2) => some (ps, RNode.mk n ps0 cs0 :: cs, rest2)
          | none => none
      | none => none
  | _ + 1, Tok.nodeEnd :: ts => some ([], [], ts)
  | _ + 1, [] => none

/-- Reference decoder of the flattened format: locate the structure and
strings blocks through the header offsets, tokenize the structure block,
resolve property names through the string table, and rebuild the root node. -/
def parseFDT (bs : List Nat) : Option RNode :=
  match readBe32 bs with
  | some (magic, _) =>
      if magic = fdtMagic then
        match readBe32 (bs.drop 8), readBe32 (bs.drop 12) with
        | some (offStruct, _), some (offStrings, _) =>
            match tokenize bs.length (bs.drop offStruct) with
            | some rtoks =>
                match rtoks.map (resolveTok (bs.drop offStrings)) with
                | Tok.nodeBegin name :: ts =>
                    match parseItems (ts.length + 1) ts with
                    | some (ps, cs, []) => some (RNode.mk name ps cs)
                    | _ => none
                | _ => none
            | none => none
        | _, _ => none
      else none
  | none => none

/-- Declared value type of a property. -/
inductive PType where
  | bytes
  | str
  | cells
  deriving DecidableEq, Repr

def typeOf : PropValue → PType
  | .bytes _ => .bytes
  | .str _ => .str
  | .cells _ => .cells

/-- Split wire bytes back into big-endian 32-bit cells. -/
def unchunk4 : List Nat → Option (List Nat)
  | [] => some []
  | a :: b :: c :: d :: rest =>
      match unchunk4 rest with
      | some cs => some ((((a * 256 + b) * 256 + c) * 256 + d) :: cs)
      | none => none
  | _ => none

/-- Reinterpret a wire value at its declared type. -/
def decodeVal : PType → List Nat → Option PropValue
  | .bytes, bs => some (.bytes bs)
  | .str, bs => if bs.getLast? = some 0 then some (.str bs.dropLast) else none
  | .cells, bs =>
      match unchunk4 bs with
      | some cs => some (.cells cs)
      | none => none

/-- The declared property types of a tree with names and values forgotten:
what a schema-aware consumer knows in advance. -/
inductive Shape where
  | mk (ptypes : List PType) (children : List Shape)
  deriving Repr

mutual

def shapeOfNode : Node → Shape
  | .mk _ props children =>
      Shape.mk (props.map (fun p => typeOf p.2)) (shapeOfList children)

def shapeOfList : List Node → List Shape
  | [] => []
  | c :: cs => shapeOfNode c :: shapeOfList cs

end

/-- Reinterpret decoded wire properties at their declared types. -/
def recoverProps : List PType → List (List Nat × List Nat) →
    Option (List (List Nat × PropValue))
  | [], [] => some []
  | ty :: tys, p :: ps =>
      match decodeVal ty p.2, recoverProps tys ps with
      | some v, some rest => some ((p.1, v) :: rest)
      | _, _ => none
  | _, _ => none

mutual

/-- Reinterpret a decoded tree at its declared shape. -/
def recoverNode : Shape → RNode → Option Node
  | .mk ptys cshapes, .mk name rprops rchildren =>
      match recoverProps ptys rprops, recoverList cshapes rchildren with
      | some ps, some cs => some (Node.mk name ps cs)
      | _, _ => none

def recoverList : List Shape → List RNode → Option (List Node)
  | [], [] => some []
  | s :: ss, r :: rs =>
      match recoverNode s r, recoverList ss rs with
      | some n, some ns => some (n :: ns)
      | _, _ => none
  | _, _ => none

end

/-! ## The boot device tree (main.ts) -/

/-- ASCII bytes of a literal string of main.ts. -/
def asciiBytes (s : String) : List Nat := s.data.map Char.toNat

def PAGE_SIZE : Nat := 65536

def memoryPages : Nat := 1024

def cmdline : List Nat := asciiBytes "no_hash_pointers"

/-- The tree main.ts hands to `generateDeviceTree`: `/chosen` with the fresh
64 random bytes as `rng-seed` and the command line as `bootargs`, an empty
`/aliases`, and `/memory` with `device_type = "memory"` and
`reg = [0, memoryPages * PAGE_SIZE]`. -/
def bootTree (seed : List Nat) : Node :=
  Node.mk [] []
    [Node.mk (asciiBytes "chosen")
        [(asciiBytes "rng-seed", PropValue.bytes seed),
         (asciiBytes "bootargs", PropValue.str cmdline)] [],
     Node.mk (asciiBytes "aliases") [] [],
     Node.mk (asciiBytes "memory")
        [(asciiBytes "device_type", PropValue.str (asciiBytes "memory")),
         (asciiBytes "reg", PropValue.cells [0, memoryPages * PAGE_SIZE])] []]

/-- A small tree exercising nesting and all three property value kinds. -/
def sampleTree : Node :=
  Node.mk [] [([97, 98], PropValue.str [104, 105])]
    [Node.mk [99]
        [([97, 98], PropValue.bytes [1, 2, 3]),
         ([114, 101, 103], PropValue.cells [0, 67108864])]
        [Node.mk [100] [] []]]

/-! ## Helper lemmas -/

theorem writeBytes_outside (m : Mem) (off : Nat) (bs : List Nat) (i : Nat)
    (h : i < off ∨ off + bs.length ≤ i) : writeBytes m off bs i = m i := by
  unfold writeBytes
  rw [dif_neg]
  rintro ⟨h1, h2⟩
  rcases h with h | h
  · omega
  · omega

theorem writeBytes_inside (m : Mem) (off : Nat) (bs : List Nat) (i : Nat)
    (h1 : off ≤ i) (h2 : i - off < bs.length) :
    writeBytes m off bs i = bs.get ⟨i - off, h2⟩ := by
  unfold writeBytes
  rw [dif_pos ⟨h1, h2⟩]

theorem irqRun_eq_lastFlag (evs : List IrqEvent) (who : Nat) :
    get_irq_enabled (irqRun evs) who = lastFlag who evs := by
  suffices h : ∀ (s : IrqSystem),
      (evs.foldl (fun s e => set_irq_enabled s e.who e.flags) s) who =
        evs.foldl (fun acc e => if e.who = who then e.flags else acc) (s who) by
    exact h irqInit
  induction evs with
  | nil => intro s; rfl
  | cons e rest ih =>
      intro s
      simp only [List.foldl_cons]
      rw [ih]
      unfold set_irq_enabled
      by_cases hw : e.who = who
      · subst hw; simp
      · have : ¬ who = e.who := fun h => hw h.symm
        simp [this, hw]

/-! ## Byte-level lemmas -/

theorem be32_length (n : Nat) : (be32 n).length = 4 := rfl

theorem readBe32_be32 (n : Nat) (rest : List Nat) (h : n < 4294967296) :
    readBe32 (be32 n ++ rest) = some (n, rest) := by
  have hval : ((n / 16777216 % 256 * 256 + n / 65536 % 256) * 256 +
      n / 256 % 256) * 256 + n % 256 = n := by omega
  simp [be32, readBe32, hval]

theorem pad4_length (bs : List Nat) :
    (pad4 bs).length = bs.length + padLen bs.length := by
  simp [pad4]

theorem drop_append_len {l r : List Nat} {k : Nat} (h : l.length = k) :
    (l ++ r).drop k = r := by
  subst h
  exact List.drop_left l r

theorem take_append_len {l r : List Nat} {k : Nat} (h : l.length = k) :
    (l ++ r).take k = l := by
  subst h
  exact List.take_left l r

theorem drop_be32 (n : Nat) (rest : List Nat) (k : Nat) :
    (be32 n ++ rest).drop (4 + k) = rest.drop k := by
  rw [← List.drop_drop]
  rw [drop_append_len (be32_length n)]

theorem drop_replicate16 (rest : List Nat) (k : Nat) :
    (List.replicate 16 (0 : Nat) ++ rest).drop (16 + k) = rest.drop k := by
  rw [← List.drop_drop]
  rw [drop_append_len (List.length_replicate 16 0)]

theorem takeWhile_append_zero {n zs : List Nat} (h : (0 : Nat) ∉ n) :
    ((n ++ 0 :: zs).takeWhile (fun b => b != 0)) = n := by
  induction n with
  | nil => simp
  | cons a n ih =>
      have ha : a ≠ 0 := by
        intro e
        exact h (by simp [e])
      simp only [List.cons_append, List.takeWhile_cons]
      have : (a != 0) = true := by simpa using ha
      rw [this]
      simp only [if_true]
      rw [ih (fun hm => h (List.mem_cons_of_mem _ hm))]

/-! ## String-table lemmas -/

theorem strOffset_le (tab : List (List Nat)) (m : List Nat) :
    strOffset tab m ≤ (strTabBytes tab).length := by
  induction tab with
  | nil => simp [strOffset, strTabBytes]
  | cons n rest ih =>
      by_cases h : n = m
      · simp [strOffset, h]
      · simp only [strOffset, if_neg h, strTabBytes, List.length_append,
          List.length_cons]
        omega

theorem lookupStr_strOffset (tab : List (List Nat)) (m : List Nat)
    (hm : m ∈ tab) (hz : ∀ n ∈ tab, (0 : Nat) ∉ n) :
    lookupStr (strTabBytes tab) (strOffset tab m) = m := by
  induction tab with
  | nil => cases hm
  | cons n rest ih =>
      by_cases h : n = m
      · subst h
        unfold lookupStr strOffset strTabBytes
        rw [if_pos rfl, List.drop_zero]
        exact takeWhile_append_zero (hz n (List.mem_cons_self n rest))
      · have hm2 : m ∈ rest := by
          cases hm with
          | head => exact absurd rfl h
          | tail _ hmem => exact hmem
        unfold lookupStr strOffset strTabBytes
        rw [if_neg h]
        have hsplit : n ++ 0 :: strTabBytes rest = (n ++ [0]) ++ strTabBytes rest := by
          simp
        rw [hsplit]
        have hlen : (n ++ [0]).length = n.length + 1 := by simp
        rw [← List.drop_drop, drop_append_len hlen]
        exact ih hm2 (fun x hx => hz x (List.mem_cons_of_mem n hx))

/-! ## Tokenizer round-trip -/

theorem serToks_cons (tab : List (List Nat)) (tok : Tok) (ts : List Tok) :
    serToks tab (tok :: ts) = serTok tab tok ++ serToks tab ts := by
  simp [serToks]

theorem length_le_serToks (tab : List (List Nat)) (ts : List Tok) :
    ts.length ≤ (serToks tab ts).length := by
  induction ts with
  | nil => simp [serToks]
  | cons tok ts ih =>
      have h1 : 1 ≤ (serTok tab tok).length := by
        cases tok <;> simp [serTok, be32]
      rw [serToks_cons]
      simp only [List.length_append, List.length_cons]
      omega

theorem tokenize_serToks (tab : List (List Nat)) (junk : List Nat) (ts : List Tok) :
    ∀ fuel : Nat, ts.length + 1 ≤ fuel →
      (∀ n, Tok.nodeBegin n ∈ ts → (0 : Nat) ∉ n) →
      (∀ n v, Tok.propTok n v ∈ ts →
        v.length < 4294967296 ∧ strOffset tab n < 4294967296) →
      tokenize fuel (serToks tab ts ++ (be32 9 ++ junk)) =
        some (ts.map (rawTok tab)) := by
  induction ts with
  | nil =>
      intro fuel hf _ _
      obtain ⟨f, rfl⟩ : ∃ f, fuel = f + 1 := ⟨fuel - 1, by omega⟩
      have h9 := readBe32_be32 9 junk (by norm_num)
      simp [serToks, tokenize, h9]
  | cons tok ts ih =>
      intro fuel hf hb hp
      obtain ⟨f, rfl⟩ : ∃ f, fuel = f + 1 := ⟨fuel - 1, by omega⟩
      have hf2 : ts.length + 1 ≤ f := by
        simp only [List.length_cons] at hf
        omega
      have ihf := ih f hf2 (fun n hn => hb n (List.mem_cons_of_mem _ hn))
        (fun n v hn => hp n v (List.mem_cons_of_mem _ hn))
      rw [serToks_cons, List.append_assoc]
      cases tok with
      | nodeEnd =>
          have h2 := readBe32_be32 2 (serToks tab ts ++ (be32 9 ++ junk)) (by norm_num)
          simp [serTok, tokenize, h2, ihf, rawTok]
      | nodeBegin nm =>
          have hnm : (0 : Nat) ∉ nm := hb nm (List.mem_cons_self _ _)
          rw [show serTok tab (Tok.nodeBegin nm) = be32 1 ++ pad4 (nm ++ [0]) from rfl,
            List.append_assoc]
          have h1 := readBe32_be32 1
            (pad4 (nm ++ [0]) ++ (serToks tab ts ++ (be32 9 ++ junk))) (by norm_num)
          have hform : pad4 (nm ++ [0]) ++ (serToks tab ts ++ (be32 9 ++ junk)) =
              nm ++ 0 :: (List.replicate (padLen (nm.length + 1)) 0 ++
                (serToks tab ts ++ (be32 9 ++ junk))) := by
            simp [pad4, padLen]
          have htw : (pad4 (nm ++ [0]) ++
              (serToks tab ts ++ (be32 9 ++ junk))).takeWhile (fun b => b != 0) = nm := by
            rw [hform]
            exact takeWhile_append_zero hnm
          have hdrop : (pad4 (nm ++ [0]) ++
              (serToks tab ts ++ (be32 9 ++ junk))).drop
                (nm.length + 1 + padLen (nm.length + 1)) =
              serToks tab ts ++ (be32 9 ++ junk) := by
            refine drop_append_len ?_
            rw [pad4_length]
            simp
          simp [tokenize, h1, htw, hdrop, ihf, rawTok]
      | propTok nm v =>
          obtain ⟨hvlen, hoffb⟩ := hp nm v (List.mem_cons_self _ _)
          rw [show serTok tab (Tok.propTok nm v) =
            be32 3 ++ (be32 v.length ++ (be32 (strOffset tab nm) ++ pad4 v)) by
              simp [serTok]]
          simp only [List.append_assoc]
          have h3 := readBe32_be32 3
            (be32 v.length ++ (be32 (strOffset tab nm) ++ (pad4 v ++
              (serToks tab ts ++ (be32 9 ++ junk))))) (by norm_num)
          have hlen := readBe32_be32 v.length
            (be32 (strOffset tab nm) ++ (pad4 v ++
              (serToks tab ts ++ (be32 9 ++ junk)))) hvlen
          have hoff := readBe32_be32 (strOffset tab nm)
            (pad4 v ++ (serToks tab ts ++ (be32 9 ++ junk))) hoffb
          have htake : (pad4 v ++ (serToks tab ts ++ (be32 9 ++ junk))).take v.length
              = v := by
            rw [show pad4 v ++ (serToks tab ts ++ (be32 9 ++ junk)) =
              v ++ (List.replicate (padLen v.length) 0 ++
                (serToks tab ts ++ (be32 9 ++ junk))) by simp [pad4]]
            exact take_append_len rfl
          have hdrop : (pad4 v ++ (serToks tab ts ++ (be32 9 ++ junk))).drop
              (v.length + padLen v.length) = serToks tab ts ++ (be32 9 ++ junk) :=
            drop_append_len (pad4_length v)
          simp [tokenize, h3, hlen, hoff, htake, hdrop, ihf, rawTok]

theorem resolve_map (tab : List (List Nat)) (ts : List Tok)
    (hz : ∀ n ∈ tab, (0 : Nat) ∉ n)
    (hmem : ∀ n v, Tok.propTok n v ∈ ts → n ∈ tab) :
    (ts.map (rawTok tab)).map (resolveTok (strTabBytes tab)) = ts := by
  induction ts with
  | nil => rfl
  | cons tok ts ih =>
      simp only [List.map_cons]
      rw [ih (fun n v h => hmem n v (List.mem_cons_of_mem _ h))]
      cases tok with
      | nodeBegin n => rfl
      | nodeEnd => rfl
      | propTok n v =>
          simp [rawTok, resolveTok,
            lookupStr_strOffset tab n (hmem n v (List.mem_cons_self _ _)) hz]

/-! ## Tree-level parse -/

theorem parseItems_round (props : List (List Nat × PropValue))
    (children : List Node) :
    ∀ (fuel : Nat) (rest : List Tok),
      (propToks props).length + (listToks children).length + 1 ≤ fuel →
      parseItems fuel
          (propToks props ++ (listToks children ++ (Tok.nodeEnd :: rest))) =
        some (eraseProps props, eraseList children, rest) := by
  intro fuel rest hf
  match props, children with
  | p :: ps, children =>
      obtain ⟨f, rfl⟩ : ∃ f, fuel = f + 1 := ⟨fuel - 1, by omega⟩
      have hrec := parseItems_round ps children f rest (by
        simp only [propToks, List.map_cons, List.length_cons] at hf ⊢
        omega)
      simp only [propToks, List.map_cons, List.cons_append] at hrec ⊢
      simp [parseItems, hrec, eraseProps]
  | [], [] =>
      obtain ⟨f, rfl⟩ : ∃ f, fuel = f + 1 := ⟨fuel - 1, by omega⟩
      simp [propToks, listToks, parseItems, eraseProps, eraseList]
  | [], Node.mk nm prs chs :: cs =>
      obtain ⟨f, rfl⟩ : ∃ f, fuel = f + 1 := ⟨fuel - 1, by omega⟩
      have hsz : (propToks prs).length + (listToks chs).length + 1 ≤ f ∧
          (propToks []).length + (listToks cs).length + 1 ≤ f := by
        simp only [propToks, listToks, nodeToks, List.map_nil, List.length_nil,
          List.length_append, List.length_cons] at hf ⊢
        omega
      have h1 := parseItems_round prs chs f (listToks cs ++ (Tok.nodeEnd :: rest))
        hsz.1
      have h2 := parseItems_round [] cs f rest hsz.2
      simp only [propToks, List.map_nil, List.nil_append] at h2 ⊢
      rw [show listToks (Node.mk nm prs chs :: cs) ++ Tok.nodeEnd :: rest =
        Tok.nodeBegin nm ::
          (propToks prs ++ (listToks chs ++ (Tok.nodeEnd ::
            (listToks cs ++ (Tok.nodeEnd :: rest))))) by
          simp [listToks, nodeToks]]
      simp [parseItems, h1, h2, eraseList, eraseNode]
termination_by sizeOf props + sizeOf children
decreasing_by
  all_goals simp [Node.mk.sizeOf_spec]
  all_goals omega

/-! ## Validity propagation over the tree -/

theorem validList_cons_elim {nm : List Nat} {prs : List (List Nat × PropValue)}
    {chs cs : List Node} (hv : validList (Node.mk nm prs chs :: cs) = true) :
    ((0 : Nat) ∉ nm) ∧ prs.all validProp = true ∧ validList chs = true ∧
      validList cs = true := by
  have h1 : validNode (Node.mk nm prs chs) = true ∧ validList cs = true := by
    simpa [validList, Bool.and_eq_true] using hv
  have h2 : ((0 : Nat) ∉ nm) ∧ prs.all validProp = true ∧ validList chs = true := by
    have := h1.1
    simp only [validNode, Bool.and_eq_true, decide_eq_true_eq] at this
    exact ⟨this.1.1, this.1.2, this.2⟩
  exact ⟨h2.1, h2.2.1, h2.2.2, h1.2⟩

theorem validProp_elim {p : List Nat × PropValue} (h : validProp p = true) :
    ((0 : Nat) ∉ p.1) ∧ validVal p.2 = true ∧
      (encodeValue p.2).length < 4294967296 := by
  simp only [validProp, Bool.and_eq_true, decide_eq_true_eq] at h
  exact ⟨h.1.1, h.1.2, h.2⟩

theorem listPropNames_nul (children : List Node)
    (hv : validList children = true) :
    ∀ m ∈ listPropNames children, (0 : Nat) ∉ m := by
  match children with
  | [] =>
      intro m hm
      simp [listPropNames] at hm
  | Node.mk nm prs chs :: cs =>
      intro m hm
      obtain ⟨_, hprops, hchs, hcs⟩ := validList_cons_elim hv
      simp only [listPropNames, nodePropNames, List.mem_append] at hm
      rcases hm with (hm | hm) | hm
      · obtain ⟨p, hp, rfl⟩ := List.mem_map.mp hm
        exact (validProp_elim (List.all_eq_true.mp hprops p hp)).1
      · exact listPropNames_nul chs hchs m hm
      · exact listPropNames_nul cs hcs m hm
termination_by sizeOf children
decreasing_by
  all_goals simp [Node.mk.sizeOf_spec]
  all_goals omega

theorem listToks_ok (children : List Node) (N : List (List Nat))
    (hv : validList children = true)
    (hsub : ∀ m ∈ listPropNames children, m ∈ N) :
    ∀ tok ∈ listToks children, tokTreeOk N tok := by
  match children with
  | [] =>
      intro tok htok
      simp [listToks] at htok
  | Node.mk nm prs chs :: cs =>
      intro tok htok
      obtain ⟨hnm, hprops, hchs, hcs⟩ := validList_cons_elim hv
      have hsub1 : ∀ m ∈ listPropNames chs, m ∈ N := by
        intro m hm
        exact hsub m (by simp [listPropNames, nodePropNames, hm])
      have hsub2 : ∀ m ∈ listPropNames cs, m ∈ N := by
        intro m hm
        exact hsub m (by simp [listPropNames, hm])
      have hform : listToks (Node.mk nm prs chs :: cs) =
          Tok.nodeBegin nm ::
            (propToks prs ++ (listToks chs ++ (Tok.nodeEnd :: listToks cs))) := by
        simp [listToks, nodeToks]
      rw [hform] at htok
      rcases List.mem_cons.mp htok with rfl | htok
      · simpa [tokTreeOk] using hnm
      rcases List.mem_append.mp htok with htok | htok
      · obtain ⟨p, hp, rfl⟩ := List.mem_map.mp htok
        obtain ⟨hp1, _, hp3⟩ := validProp_elim (List.all_eq_true.mp hprops p hp)
        refine ⟨?_, hp3⟩
        exact hsub p.1 (by
          have hmem : p.1 ∈ prs.map Prod.fst := List.mem_map.mpr ⟨p, hp, rfl⟩
          simp only [listPropNames, nodePropNames, List.mem_append]
          exact Or.inl (Or.inl hmem))
      rcases List.mem_append.mp htok with htok | htok
      · exact listToks_ok chs N hchs hsub1 tok htok
      rcases List.mem_cons.mp htok with rfl | htok
      · trivial
      · exact listToks_ok cs N hcs hsub2 tok htok
termination_by sizeOf children
decreasing_by
  all_goals simp [Node.mk.sizeOf_spec]
  all_goals omega

/-! ## Typed recovery of wire values -/

theorem unchunk4_flatten (cs : List Nat) (h : ∀ c ∈ cs, c < 4294967296) :
    unchunk4 ((cs.map be32).flatten) = some cs := by
  induction cs with
  | nil => rfl
  | cons c cs ih =>
      have hc : c < 4294967296 := h c (List.mem_cons_self _ _)
      have hval : ((c / 16777216 % 256 * 256 + c / 65536 % 256) * 256 +
          c / 256 % 256) * 256 + c % 256 = c := by omega
      simp only [List.map_cons, List.flatten_cons, be32, List.cons_append,
        List.nil_append]
      simp [unchunk4, ih (fun x hx => h x (List.mem_cons_of_mem _ hx)), hval]

theorem decodeVal_encodeValue (v : PropValue) (hv : validVal v = true) :
    decodeVal (typeOf v) (encodeValue v) = some v := by
  cases v with
  | bytes bs => rfl
  | str s => simp [typeOf, encodeValue, decodeVal]
  | cells cs =>
      have h : ∀ c ∈ cs, c < 4294967296 := by
        simpa [validVal, List.all_eq_true] using hv
      simp [typeOf, encodeValue, decodeVal, unchunk4_flatten cs h]

theorem recoverProps_erase (props : List (List Nat × PropValue))
    (hv : props.all validProp = true) :
    recoverProps (props.map (fun p => typeOf p.2)) (eraseProps props) =
      some props := by
  induction props with
  | nil => rfl
  | cons p ps ih =>
      have h1 := validProp_elim (List.all_eq_true.mp hv p (List.mem_cons_self _ _))
      have h2 : ps.all validProp = true := by
        rw [List.all_eq_true]
        intro x hx
        exact List.all_eq_true.mp hv x (List.mem_cons_of_mem _ hx)
      have ih2 := ih h2
      simp only [eraseProps] at ih2
      simp [eraseProps, recoverProps, decodeVal_encodeValue p.2 h1.2.1, ih2]

theorem recoverList_erase (children : List Node) (hv : validList children = true) :
    recoverList (shapeOfList children) (eraseList children) = some children := by
  match children with
  | [] => rfl
  | Node.mk nm prs chs :: cs =>
      obtain ⟨hnm, hprops, hchs, hcs⟩ := validList_cons_elim hv
      have h1 := recoverList_erase chs hchs
      have h2 := recoverList_erase cs hcs
      simp [shapeOfList, shapeOfNode, eraseList, eraseNode, recoverList,
        recoverNode, recoverProps_erase prs hprops, h1, h2]
termination_by sizeOf children
decreasing_by
  all_goals simp [Node.mk.sizeOf_spec]
  all_goals omega

/-! ## Blob assembly -/

theorem drop8_header (m n : Nat) (x : List Nat) :
    (be32 m ++ (be32 n ++ x)).drop 8 = x := by
  rw [show (8 : Nat) = 4 + (4 + 0) from rfl, drop_be32, drop_be32, List.drop_zero]

theorem drop12_header (m n o : Nat) (x : List Nat) :
    (be32 m ++ (be32 n ++ (be32 o ++ x))).drop 12 = x := by
  rw [show (12 : Nat) = 4 + (4 + (4 + 0)) from rfl, drop_be32, drop_be32, drop_be32,
    List.drop_zero]

theorem drop56_header (a b c d e f g h i j : Nat) (x : List Nat) :
    (be32 a ++ (be32 b ++ (be32 c ++ (be32 d ++ (be32 e ++ (be32 f ++
      (be32 g ++ (be32 h ++ (be32 i ++ (be32 j ++
        (List.replicate 16 0 ++ x))))))))))).drop 56 = x := by
  rw [show (56 : Nat) =
    4 + (4 + (4 + (4 + (4 + (4 + (4 + (4 + (4 + (4 + (16 + 0)))))))))) from rfl]
  rw [drop_be32, drop_be32, drop_be32, drop_be32, drop_be32, drop_be32, drop_be32,
    drop_be32, drop_be32, drop_be32, drop_replicate16, List.drop_zero]

theorem fdtStruct_length (t : Node) :
    (fdtStruct t).length = (serToks (fdtTab t) (nodeToks t)).length + 4 := by
  simp [fdtStruct, be32]

theorem encodeFDT_length (t : Node) :
    (encodeFDT t).length = 56 + (fdtStruct t).length + (fdtStrings t).length := by
  simp only [encodeFDT, List.length_append, be32_length, List.length_replicate]

theorem parseFDT_encodeFDT (t : Node) (hv : validNode t = true)
    (hfit : fdtFits t = true) :
    parseFDT (encodeFDT t) = some (eraseNode t) := by
  have hvl : validList [t] = true := by simp [validList, hv]
  have hfit2 : (encodeFDT t).length < 4294967296 := by
    simpa [fdtFits] using hfit
  have hlen := encodeFDT_length t
  have hsl := fdtStruct_length t
  have hznul : ∀ n ∈ fdtTab t, (0 : Nat) ∉ n := by
    intro n hn
    refine listPropNames_nul [t] hvl n ?_
    have hmem : n ∈ nodePropNames t := List.mem_dedup.mp hn
    simpa [listPropNames] using hmem
  have hgl : (strTabBytes (fdtTab t)).length < 4294967296 := by
    have h1 : (fdtStrings t).length ≤ (encodeFDT t).length := by omega
    have h2 := lt_of_le_of_lt h1 hfit2
    simpa [fdtStrings] using h2
  have htoks : ∀ tok ∈ nodeToks t, tokTreeOk (fdtTab t) tok := by
    intro tok htok
    refine listToks_ok [t] (fdtTab t) hvl ?_ tok ?_
    · intro m hm
      apply List.mem_dedup.mpr
      simpa [listPropNames] using hm
    · simpa [listToks] using htok
  have hb : ∀ n, Tok.nodeBegin n ∈ nodeToks t → (0 : Nat) ∉ n := by
    intro n hn
    simpa [tokTreeOk] using htoks _ hn
  have hp : ∀ n v, Tok.propTok n v ∈ nodeToks t →
      v.length < 4294967296 ∧ strOffset (fdtTab t) n < 4294967296 := by
    intro n v hn
    have h1 := htoks _ hn
    simp only [tokTreeOk] at h1
    exact ⟨h1.2, lt_of_le_of_lt (strOffset_le _ _) hgl⟩
  have hmem : ∀ n v, Tok.propTok n v ∈ nodeToks t → n ∈ fdtTab t := by
    intro n v hn
    have h1 := htoks _ hn
    simp only [tokTreeOk] at h1
    exact h1.1
  have hfuel : (nodeToks t).length + 1 ≤ (encodeFDT t).length := by
    have h1 := length_le_serToks (fdtTab t) (nodeToks t)
    omega
  rw [show encodeFDT t =
    be32 fdtMagic ++
      (be32 (56 + (fdtStruct t).length + (fdtStrings t).length) ++
        (be32 56 ++ (be32 (56 + (fdtStruct t).length) ++
          (be32 40 ++ (be32 17 ++ (be32 16 ++ (be32 0 ++
            (be32 (fdtStrings t).length ++ (be32 (fdtStruct t).length ++
              (List.replicate 16 0 ++
                (fdtStruct t ++ fdtStrings t))))))))))) from rfl]
  simp only [parseFDT]
  rw [readBe32_be32 fdtMagic _ (by norm_num [fdtMagic])]
  simp only [if_pos rfl]
  rw [drop8_header, drop12_header]
  rw [readBe32_be32 56 _ (by norm_num)]
  rw [readBe32_be32 (56 + (fdtStruct t).length) _ (by omega)]
  simp only [if_true]
  rw [← List.drop_drop]
  rw [drop56_header]
  rw [drop_append_len rfl]
  rw [show fdtStruct t ++ fdtStrings t =
    serToks (fdtTab t) (nodeToks t) ++ (be32 9 ++ fdtStrings t) from by
      rw [fdtStruct, List.append_assoc]]
  have hfuel2 : (nodeToks t).length + 1 ≤
      (be32 fdtMagic ++
        (be32 (56 + (fdtStruct t).length + (fdtStrings t).length) ++
          (be32 56 ++ (be32 (56 + (fdtStruct t).length) ++
            (be32 40 ++ (be32 17 ++ (be32 16 ++ (be32 0 ++
              (be32 (fdtStrings t).length ++ (be32 (fdtStruct t).length ++
                (List.replicate 16 0 ++
                  (serToks (fdtTab t) (nodeToks t) ++
                    (be32 9 ++ fdtStrings t))))))))))))).length := by
    simp only [List.length_append, be32_length, List.length_replicate]
    have h1 := length_le_serToks (fdtTab t) (nodeToks t)
    omega
  rw [tokenize_serToks (fdtTab t) (fdtStrings t) (nodeToks t) _ hfuel2 hb hp]
  rw [show fdtStrings t = strTabBytes (fdtTab t) from rfl]
  dsimp only
  rw [resolve_map (fdtTab t) (nodeToks t) hznul hmem]
  obtain ⟨nm, prs, chs⟩ := t
  simp only [nodeToks]
  rw [parseItems_round prs chs
    ((propToks prs ++ (listToks chs ++ [Tok.nodeEnd])).length + 1) [] (by
      simp only [List.length_append, List.length_cons, List.length_nil]
      omega)]
  simp [eraseNode]

/-! ## Claim theorems -/

/-- C2: encoding a valid tree and parsing the blob with the reference
flattened-format decoder yields back exactly the original node/property
structure: the decoder returns the tree with every name intact and every
value in wire form, and reinterpreting each wire value at its declared type
restores the original tree exactly. -/
theorem fdt_roundtrip (t : Node) (hv : validNode t = true)
    (hfit : fdtFits t = true) :
    parseFDT (encodeFDT t) = some (eraseNode t) ∧
    recoverNode (shapeOfNode t) (eraseNode t) = some t := by
  refine ⟨parseFDT_encodeFDT t hv hfit, ?_⟩
  obtain ⟨nm, prs, chs⟩ := t
  have h := validList_cons_elim
    (show validList [Node.mk nm prs chs] = true by simp [validList, hv])
  simp [shapeOfNode, eraseNode, recoverNode, recoverProps_erase prs h.2.1,
    recoverList_erase chs h.2.2.1]

set_option maxRecDepth 20000 in
theorem fdt_roundtrip_witness :
    (validNode sampleTree = true ∧ fdtFits sampleTree = true) ∧
    (parseFDT (encodeFDT sampleTree) = some (eraseNode sampleTree) ∧
      recoverNode (shapeOfNode sampleTree) (eraseNode sampleTree) =
        some sampleTree) :=
  ⟨⟨rfl, rfl⟩, fdt_roundtrip sampleTree rfl rfl⟩

/-- C8: with any 64-byte seed, the boot device tree consists of exactly a
`/chosen` node carrying `rng-seed` (the 64 raw seed bytes) and `bootargs`
(the boot command line), an empty `/aliases` node, and a `/memory` node with
`device_type = "memory"` and a `reg` of the two cells (0, 1024 pages × 64
KiB = 67108864); and the encoded blob parses back to exactly that content. -/
theorem boot_device_tree_content (seed : List Nat) (h : seed.length = 64) :
    bootTree seed = Node.mk [] []
      [Node.mk (asciiBytes "chosen")
          [(asciiBytes "rng-seed", PropValue.bytes seed),
           (asciiBytes "bootargs", PropValue.str (asciiBytes "no_hash_pointers"))]
          [],
       Node.mk (asciiBytes "aliases") [] [],
       Node.mk (asciiBytes "memory")
          [(asciiBytes "device_type", PropValue.str (asciiBytes "memory")),
           (asciiBytes "reg", PropValue.cells [0, 67108864])] []] ∧
    parseFDT (encodeFDT (bootTree seed)) = some (RNode.mk [] []
      [RNode.mk (asciiBytes "chosen")
          [(asciiBytes "rng-seed", seed),
           (asciiBytes "bootargs", asciiBytes "no_hash_pointers" ++ [0])] [],
       RNode.mk (asciiBytes "aliases") [] [],
       RNode.mk (asciiBytes "memory")
          [(asciiBytes "device_type", asciiBytes "memory" ++ [0]),
           (asciiBytes "reg", be32 0 ++ be32 67108864)] []]) := by
  have hv : validNode (bootTree seed) = true := by
    simp [bootTree, validNode, validList, validProp, validVal, encodeValue,
      cmdline, h, asciiBytes, memoryPages, PAGE_SIZE, be32]
  have hfit : fdtFits (bootTree seed) = true := by
    have h1 := encodeFDT_length (bootTree seed)
    have h2 := fdtStruct_length (bootTree seed)
    have h3 : (serToks (fdtTab (bootTree seed))
        (nodeToks (bootTree seed))).length = 208 := by
      simp [serToks, serTok, nodeToks, listToks, propToks, bootTree, encodeValue,
        cmdline, asciiBytes, pad4_length, padLen, be32, h, strOffset, fdtTab,
        memoryPages, PAGE_SIZE]
    have h4 : (fdtStrings (bootTree seed)).length = 34 := by
      simp [fdtStrings, fdtTab, bootTree, nodePropNames, listPropNames,
        strTabBytes, asciiBytes]
    simp only [fdtFits, decide_eq_true_eq]
    omega
  constructor
  · simp [bootTree, cmdline, memoryPages, PAGE_SIZE]
  · rw [parseFDT_encodeFDT (bootTree seed) hv hfit]
    simp [bootTree, eraseNode, eraseList, eraseProps, encodeValue, cmdline,
      memoryPages, PAGE_SIZE, be32]

set_option maxRecDepth 20000 in
theorem boot_device_tree_witness :
    (List.replicate 64 3).length = 64 ∧
    (bootTree (List.replicate 64 3) = Node.mk [] []
      [Node.mk (asciiBytes "chosen")
          [(asciiBytes "rng-seed", PropValue.bytes (List.replicate 64 3)),
           (asciiBytes "bootargs", PropValue.str (asciiBytes "no_hash_pointers"))]
          [],
       Node.mk (asciiBytes "aliases") [] [],
       Node.mk (asciiBytes "memory")
          [(asciiBytes "device_type", PropValue.str (asciiBytes "memory")),
           (asciiBytes "reg", PropValue.cells [0, 67108864])] []] ∧
    parseFDT (encodeFDT (bootTree (List.replicate 64 3))) = some (RNode.mk [] []
      [RNode.mk (asciiBytes "chosen")
          [(asciiBytes "rng-seed", List.replicate 64 3),
           (asciiBytes "bootargs", asciiBytes "no_hash_pointers" ++ [0])] [],
       RNode.mk (asciiBytes "aliases") [] [],
       RNode.mk (asciiBytes "memory")
          [(asciiBytes "device_type", asciiBytes "memory" ++ [0]),
           (asciiBytes "reg", be32 0 ++ be32 67108864)] []])) :=
  ⟨by simp, boot_device_tree_content (List.replicate 64 3) (by simp)⟩

/-- C5: every `get_now_nsec` result is a multiple of 5000 nanoseconds, and the
results are monotonically non-decreasing whenever the underlying host clock
readings are non-decreasing. -/
theorem get_now_nsec_precision_and_monotone (t t1 t2 : ℚ) (h : t1 ≤ t2) :
    (5000 : ℤ) ∣ get_now_nsec t ∧ get_now_nsec t1 ≤ get_now_nsec t2 := by
  constructor
  · exact Dvd.intro _ (mul_comm _ _)
  · unfold get_now_nsec
    have hr : round (t1 * 200) ≤ round (t2 * 200) := by
      rw [round_eq, round_eq]
      exact Int.floor_le_floor (by linarith)
    exact mul_le_mul_of_nonneg_right hr (by norm_num)

theorem get_now_nsec_witness :
    ((1 : ℚ) ≤ 2) ∧ ((5000 : ℤ) ∣ get_now_nsec 3 ∧ get_now_nsec 1 ≤ get_now_nsec 2) :=
  ⟨by norm_num, get_now_nsec_precision_and_monotone 3 1 2 (by norm_num)⟩

/-- C7: within one instantiation, `get_irq_enabled` returns the flag of the
most recent `set_irq_enabled` of that instantiation (0 if none), and a
`set_irq_enabled` in any other instantiation leaves this one's reading
unchanged. -/
theorem irq_flag_per_instantiation (evs : List IrqEvent) (who other : Nat)
    (flags : Int) (h : other ≠ who) :
    get_irq_enabled (irqRun evs) who = lastFlag who evs ∧
    get_irq_enabled (irqRun []) who = 0 ∧
    get_irq_enabled (irqRun (evs ++ [⟨other, flags⟩])) who =
      get_irq_enabled (irqRun evs) who := by
  refine ⟨irqRun_eq_lastFlag evs who, rfl, ?_⟩
  unfold irqRun
  rw [List.foldl_append]
  simp only [List.foldl_cons, List.foldl_nil]
  unfold get_irq_enabled set_irq_enabled
  rw [if_neg (fun hh : who = other => h hh.symm)]

theorem irq_flag_witness :
    ((1 : Nat) ≠ 0) ∧
    (get_irq_enabled (irqRun [⟨0, 5⟩, ⟨1, 7⟩]) 0 = lastFlag 0 [⟨0, 5⟩, ⟨1, 7⟩] ∧
     get_irq_enabled (irqRun []) 0 = 0 ∧
     get_irq_enabled (irqRun ([⟨0, 5⟩, ⟨1, 7⟩] ++ [⟨1, 9⟩])) 0 =
       get_irq_enabled (irqRun [⟨0, 5⟩, ⟨1, 7⟩]) 0) :=
  ⟨by decide, irq_flag_per_instantiation [⟨0, 5⟩, ⟨1, 7⟩] 0 1 9 (by decide)⟩

/-- C4: `get_dt` on a non-boot context leaves every byte of shared memory
unchanged and only logs an error line. -/
theorem get_dt_nonboot_no_write (m : Mem) (buf size : Nat) :
    (get_dt_default m buf size).1 = m ∧
    (get_dt_default m buf size).2 = ["get_dt called on non-boot thread"] :=
  ⟨rfl, rfl⟩

/-- C9: `get_stacktrace` writes only inside `[buf, buf + size)`: every byte
below `buf` or at/past `buf + size` is unchanged, whatever the trace is. -/
theorem get_stacktrace_bounded (m : Mem) (trace : List Nat) (buf size i : Nat)
    (h : i < buf ∨ buf + size ≤ i) :
    get_stacktrace m trace buf size i = m i := by
  unfold get_stacktrace
  apply writeBytes_outside
  rcases h with h | h
  · exact Or.inl h
  · refine Or.inr ?_
    have : (List.take size (if size ≥ trace.length then
        tset (tset (tset trace ((size : Int) - 1) 46) ((size : Int) - 2) 46)
          ((size : Int) - 3) 46 else trace)).length ≤ size := by
      exact List.length_take_le size _
    omega

theorem get_stacktrace_bounded_witness :
    ((12 : Nat) < 10 ∨ 10 + 2 ≤ 12) ∧
    get_stacktrace (fun _ => 0) [1, 2, 3] 10 2 12 = (fun (_ : Nat) => (0 : Nat)) 12 :=
  ⟨by decide, get_stacktrace_bounded (fun _ => 0) [1, 2, 3] 10 2 12 (by decide)⟩

/-- C1 (counterexample to the claimed truncation marker): with the 8-byte trace
"abcdefgh" and capacity 5, the code writes the first five trace bytes
unchanged — the last three written bytes are 99, 100, 101, not the claimed
`'.'` (46) marker, because the guard `size >= trace.byteLength` is false
exactly when the trace overflows the capacity. -/
theorem get_stacktrace_overflow_no_marker :
    readBytes (get_stacktrace (fun _ => 0) [97, 98, 99, 100, 101, 102, 103, 104] 0 5) 0 5 =
      [97, 98, 99, 100, 101] ∧
    get_stacktrace (fun _ => 0) [97, 98, 99, 100, 101, 102, 103, 104] 0 5 4 ≠ 46 := by
  constructor
  · decide
  · decide

/-- C3: the boot context's `get_dt` with capacity ≥ blob length writes the full
blob at `buf` and changes nothing outside `[buf, buf + blob length)`; with
capacity < blob length it fails with the "Device tree truncated" assertion and
returns no memory state (the assert runs before the copy). -/
theorem get_dt_boot_spec (dt : List Nat) (m : Mem) (buf size : Nat) :
    (size ≥ dt.length →
      get_dt_boot dt m buf size = Except.ok (writeBytes m buf dt) ∧
      (∀ i, ∀ h2 : i - buf < dt.length, buf ≤ i →
        writeBytes m buf dt i = dt.get ⟨i - buf, h2⟩) ∧
      (∀ i, i < buf ∨ buf + dt.length ≤ i → writeBytes m buf dt i = m i)) ∧
    (size < dt.length →
      get_dt_boot dt m buf size = Except.error "Device tree truncated") := by
  constructor
  · intro hge
    have hassert : assertCheck (decide (size ≥ dt.length)) "Device tree truncated" =
        Except.ok () := by
      unfold assertCheck
      simp [hge]
    refine ⟨?_, ?_, ?_⟩
    · unfold get_dt_boot
      rw [hassert]
      rw [List.take_of_length_le hge]
    · intro i h2 h1
      exact writeBytes_inside m buf dt i h1 h2
    · intro i hi
      exact writeBytes_outside m buf dt i hi
  · intro hlt
    unfold get_dt_boot assertCheck
    have : ¬ (size ≥ dt.length) := by omega
    simp [this]

theorem get_dt_boot_witness :
    ((3 : Nat) ≥ ([1, 2] : List Nat).length ∧ (2 : Nat) < ([1, 2, 3] : List Nat).length) ∧
    get_dt_boot [1, 2] (fun _ => 0) 5 3 = Except.ok (writeBytes (fun _ => 0) 5 [1, 2]) ∧
    get_dt_boot [1, 2, 3] (fun _ => 0) 5 2 = Except.error "Device tree truncated" :=
  ⟨by decide,
   ((get_dt_boot_spec [1, 2] (fun _ => 0) 5 3).1 (by decide)).1,
   (get_dt_boot_spec [1, 2, 3] (fun _ => 0) 5 2).2 (by decide)⟩

/-- C6: a `new_worker` call whose name region decodes to `name` posts exactly
one `task` spawn request carrying `(task, name)`, and the orchestrator answers
it by creating exactly one worker and posting exactly one `task` start message
to it; `bringup_secondary(cpu, idle)` posts exactly one `secondary` request,
answered by exactly one worker with one `secondary(cpu, idle)` start message. -/
theorem spawn_request_exactly_one (m : Mem) (task comm commLen cpu idle w : Nat)
    (name : List Nat) (h : readBytes m comm commLen = name) :
    new_worker m task comm commLen = [SpawnMsg.task task name] ∧
    handleSpawnMsg w (SpawnMsg.task task name) =
      [OrchAction.create w, OrchAction.attach w,
        OrchAction.post w (StartMsg.task task)] ∧
    bringup_secondary cpu idle = [SpawnMsg.secondary cpu idle] ∧
    handleSpawnMsg w (SpawnMsg.secondary cpu idle) =
      [OrchAction.create w, OrchAction.attach w,
        OrchAction.post w (StartMsg.secondary cpu idle)] := by
  refine ⟨?_, rfl, rfl, rfl⟩
  unfold new_worker
  rw [h]

theorem spawn_request_witness :
    readBytes (writeBytes (fun _ => 0) 3 [119, 111, 114, 107, 101, 114, 45, 97]) 3 8 =
      [119, 111, 114, 107, 101, 114, 45, 97] ∧
    (new_worker (writeBytes (fun _ => 0) 3 [119, 111, 114, 107, 101, 114, 45, 97]) 7 3 8 =
      [SpawnMsg.task 7 [119, 111, 114, 107, 101, 114, 45, 97]] ∧
     handleSpawnMsg 1 (SpawnMsg.task 7 [119, 111, 114, 107, 101, 114, 45, 97]) =
      [OrchAction.create 1, OrchAction.attach 1, OrchAction.post 1 (StartMsg.task 7)] ∧
     bringup_secondary 2 99 = [SpawnMsg.secondary 2 99] ∧
     handleSpawnMsg 1 (SpawnMsg.secondary 2 99) =
      [OrchAction.create 1, OrchAction.attach 1,
        OrchAction.post 1 (StartMsg.secondary 2 99)]) :=
  ⟨by decide,
   spawn_request_exactly_one (writeBytes (fun _ => 0) 3 [119, 111, 114, 107, 101, 114, 45, 97])
     7 3 8 2 99 1 [119, 111, 114, 107, 101, 114, 45, 97] (by decide)⟩

/-- C10: on every spawn path of the orchestrator — the initial boot spawn and
the handler's response to either kind of spawn request — the `listen` handler
is attached to the new worker strictly before its start message is posted, and
the handler turns every spawn request (task or secondary) into exactly one new
worker. -/
theorem listener_attached_before_start (w : Nat) :
    attachPrecedesPost (bootSpawn w) ∧
    (∀ msg : SpawnMsg, attachPrecedesPost (handleSpawnMsg w msg)) ∧
    (∀ msg : SpawnMsg,
      ((handleSpawnMsg w msg).filter (fun a => a = OrchAction.create w)).length = 1) := by
  refine ⟨?_, ?_, ?_⟩
  · intro j w' s hj
    match j, hj with
    | 2, hj =>
        refine ⟨1, by omega, ?_⟩
        simp only [bootSpawn, List.get?] at hj ⊢
        cases hj
        rfl
  · intro msg j w' s hj
    cases msg with
    | task t name =>
        match j, hj with
        | 2, hj =>
            refine ⟨1, by omega, ?_⟩
            simp only [handleSpawnMsg, List.get?] at hj ⊢
            cases hj
            rfl
    | secondary cpu idle =>
        match j, hj with
        | 2, hj =>
            refine ⟨1, by omega, ?_⟩
            simp only [handleSpawnMsg, List.get?] at hj ⊢
            cases hj
            rfl
  · intro msg
    cases msg with
    | task t name => simp [handleSpawnMsg]
    | secondary cpu idle => simp [handleSpawnMsg]

end WasmVM
